import Mathlib

/-!
Verification of the scoring and aggregation core of the RBR_Klassement
repository (files `classification/scorer.py` and `classification/analyse.py`).

The Python code is shallowly embedded: pandas DataFrames become lists of
records, `NaN` cells become `Option.none`, and each pandas operation used by
the core (sorting, `nsmallest`, `nlargest`, `rank(method=min)`, outer merge,
group-by rank) is translated to an executable Lean function on those lists.
-/

namespace RBR

/-! ### Points distribution (`scorer.py`, `ResultScorer._get_points_distribution`) -/

/-- Embedding of Python `list(range(start, stop, -step))` for a positive `step`
and `start > stop`: the values `start, start - step, …` strictly above `stop`. -/
def rangeDown (start stop : Int) (step : Nat) : List Int :=
  (List.range (((start - stop).toNat + step - 1) / step)).map
    fun i => start - (step : Int) * (i : Int)

/-- Embedding of `_get_points_distribution`:
`[250, 240] + list(range(230, 170, -5)) + list(range(170, 100, -2)) + list(range(100, 0, -1))`. -/
def points_distribution : List Int :=
  [250, 240] ++ rangeDown 230 170 5 ++ rangeDown 170 100 2 ++ rangeDown 100 0 1

/-- Decidable check that a list of integers descends in constant steps of `d`. -/
def stepChain (d : Int) : List Int → Bool
  | a :: b :: rest => (b == a - d) && stepChain d (b :: rest)
  | _ => true

/-- Decidable check that a list of integers is monotonically non-increasing. -/
def nonIncreasing : List Int → Bool
  | a :: b :: rest => decide (b ≤ a) && nonIncreasing (b :: rest)
  | _ => true

/-! ### Event scorer (`scorer.py`, `ResultScorer.calculate_points`) -/

/-- One cleaned result row handed to the scorer: the participant name, the
primary sort key (the `sort_column`, e.g. the finish time) and the value of the
optional `position_column` used as a secondary sort key. -/
structure ParticipantResult where
  name : String
  sortKey : Int
  posKey : Int
  deriving DecidableEq

/-- The sort order used by `calculate_points`: ascending by `sort_column`, and,
when a `position_column` is supplied (`usePos = true`), ascending by
`(sort_column, position_column)` lexicographically. -/
def resultLe (usePos : Bool) (a b : ParticipantResult) : Prop :=
  a.sortKey < b.sortKey ∨ (a.sortKey = b.sortKey ∧ (usePos = true → a.posKey ≤ b.posKey))

instance (usePos : Bool) : DecidableRel (resultLe usePos) := fun a b =>
  inferInstanceAs (Decidable
    (a.sortKey < b.sortKey ∨ (a.sortKey = b.sortKey ∧ (usePos = true → a.posKey ≤ b.posKey))))

instance (usePos : Bool) : IsTotal ParticipantResult (resultLe usePos) := by
  constructor
  intro a b
  rcases lt_trichotomy a.sortKey b.sortKey with h | h | h
  · exact Or.inl (Or.inl h)
  · rcases le_total a.posKey b.posKey with hp | hp
    · exact Or.inl (Or.inr ⟨h, fun _ => hp⟩)
    · exact Or.inr (Or.inr ⟨h.symm, fun _ => hp⟩)
  · exact Or.inr (Or.inl h)

instance (usePos : Bool) : IsTrans ParticipantResult (resultLe usePos) := by
  constructor
  intro a b c hab hbc
  rcases hab with h1 | ⟨h1, h1p⟩
  · rcases hbc with h2 | ⟨h2, _⟩
    · exact Or.inl (h1.trans h2)
    · exact Or.inl (h2 ▸ h1)
  · rcases hbc with h2 | ⟨h2, h2p⟩
    · exact Or.inl (h1 ▸ h2)
    · exact Or.inr ⟨h1.trans h2, fun hu => (h1p hu).trans (h2p hu)⟩

/-- One output row of the event scorer: the input row annotated with the
`Points_<race>` and `Rank_<race>` values assigned to it. -/
structure EventScore where
  base : ParticipantResult
  points : Int
  rank : Nat
  deriving DecidableEq

/-- Embedding of `ResultScorer.calculate_points`: sort the rows by the sort
key, assign `points_distribution[:min(N, L)] + [1] * (N - min(N, L))` as the
points column and `range(1, N + 1)` as the rank column, in sorted order. -/
def calculate_points (usePos : Bool) (rows : List ParticipantResult) : List EventScore :=
  let dist := points_distribution
  let sorted := rows.insertionSort (resultLe usePos)
  let n := sorted.length
  let toAssign := dist.take (min n dist.length)
  let pts := toAssign ++ List.replicate (n - toAssign.length) (1 : Int)
  (sorted.zip (pts.zip (List.range' 1 n))).map fun x => ⟨x.1, x.2.1, x.2.2⟩

/-! ### Joined season table (`analyse.py`, `merge_race_dataframes`)

One row of the outer-joined season DataFrame: the participant name together
with the `Points_<race>` and `Rank_<race>` cells for every event, where a
`NaN` cell (the participant did not appear in that event) is `none`. -/

/-- One row of a scored per-event table, as handed to the aggregator:
`Naam`, `Points_<race>` and `Rank_<race>`. -/
structure EventRow where
  name : String
  pts : Int
  evRank : Int
  deriving DecidableEq

/-- One row of the outer-joined season table. -/
structure SeriesRow where
  name : String
  points : List (Option Int)
  ranks : List (Option Int)
  deriving DecidableEq

/-- The extension of an accumulator row by a matching event row. -/
def extRow (row : SeriesRow) (e : EventRow) : SeriesRow :=
  ⟨row.name, row.points ++ [some e.pts], row.ranks ++ [some e.evRank]⟩

/-- The padding of an accumulator row that has no match in the event. -/
def padRow (row : SeriesRow) : SeriesRow :=
  ⟨row.name, row.points ++ [none], row.ranks ++ [none]⟩

/-- A fresh joined row for an event row whose name was unseen so far, padded
with `k` leading `NaN` cells. -/
def newRow (k : Nat) (e : EventRow) : SeriesRow :=
  ⟨e.name, List.replicate k none ++ [some e.pts], List.replicate k none ++ [some e.evRank]⟩

/-- The block of joined rows that one outer-merge step produces for one
accumulator row: the row extended by each of its matches in the event, or
padded with `NaN` when no row of the event matches its name. -/
def matchBlock (ev : List EventRow) (row : SeriesRow) : List SeriesRow :=
  match ev.filter (fun e => e.name == row.name) with
  | [] => [padRow row]
  | es => es.map (extRow row)

/-- Embedding of one `pd.merge(acc, ev, on=Naam, how=outer)` step, where `acc`
already carries `k` events of columns: rows of `acc` are matched against the
rows of `ev` with the same name (each match extends the row by that event's
points and rank cells, no match pads with `NaN`), and the unmatched rows of
`ev` are appended, padded with `k` leading `NaN` cells. -/
def outerMerge (k : Nat) (acc : List SeriesRow) (ev : List EventRow) : List SeriesRow :=
  acc.flatMap (matchBlock ev)
  ++ ((ev.filter fun e => !(acc.any fun row => row.name == e.name)).map (newRow k))

/-- Left fold of `outerMerge` over the remaining events, tracking how many
event column pairs the accumulator already holds. -/
def mergeAllFrom (k : Nat) (acc : List SeriesRow) : List (List EventRow) → List SeriesRow
  | [] => acc
  | ev :: rest => mergeAllFrom (k + 1) (outerMerge k acc ev) rest

/-- Embedding of `merge_race_dataframes`: start from the first event's table
and outer-merge the remaining tables into it, one by one. -/
def merge_race_dataframes (evs : List (List EventRow)) : List SeriesRow :=
  match evs with
  | [] => []
  | ev :: rest => mergeAllFrom 1 (ev.map fun e => ⟨e.name, [some e.pts], [some e.evRank]⟩) rest

/-- The per-event points of a name as they appear in the joined table: one
entry per event, `none` where the name is absent from that event. -/
def joinedPoints (evs : List (List EventRow)) (x : String) : List (Option Int) :=
  evs.map fun ev => (ev.find? fun e => e.name == x).map (·.pts)

/-- The per-event ranks of a name as they appear in the joined table. -/
def joinedRanks (evs : List (List EventRow)) (x : String) : List (Option Int) :=
  evs.map fun ev => (ev.find? fun e => e.name == x).map (·.evRank)

/-- A per-event table is clean when no name occurs twice in it. -/
def nodupNames (ev : List EventRow) : Prop := (ev.map (·.name)).Nodup

instance (ev : List EventRow) : Decidable (nodupNames ev) :=
  inferInstanceAs (Decidable ((ev.map fun e : EventRow => e.name).Nodup))

/-! ### Season totals and tie-break columns (`analyse.py`, `calculate_ranks_and_totals`) -/

/-- The per-event ranks of a row that are actually present (pandas drops `NaN`
in `nsmallest`). -/
def presentRanks (row : SeriesRow) : List Int := row.ranks.filterMap id

/-- The per-event points of a row that are actually present. -/
def presentPoints (row : SeriesRow) : List Int := row.points.filterMap id

/-- Embedding of `x.nsmallest(k).iloc[-1] if x.nsmallest(k).size > 0 else NaN`:
the last entry of the first `k` values in ascending order, `none` when there
are no values at all. -/
def nsmallestLast (k : Nat) (l : List Int) : Option Int :=
  ((l.insertionSort (· ≤ ·)).take k).getLast?

/-- The `Topk_Rank` column of a row (`k ≥ 1`). -/
def topRank (k : Nat) (row : SeriesRow) : Option Int := nsmallestLast k (presentRanks row)

/-- The tie-break columns `Top1_Rank .. Topn_Rank` of a row, where `n` is the
number of `Rank_` columns of the joined table. -/
def topRanks (n : Nat) (row : SeriesRow) : List (Option Int) :=
  (List.range n).map fun i => topRank (i + 1) row

/-- Embedding of `race_count = df.filter(regex=Points).gt(0).sum(axis=1)`:
the number of events with strictly positive points (a `NaN` cell compares as
not greater than zero). -/
def raceCount (row : SeriesRow) : Nat := (presentPoints row).countP fun p => decide (0 < p)

/-- Embedding of `Bonus = 15 * (race_count == 4) + 30 * (race_count == 5)`. -/
def bonus (row : SeriesRow) : Int :=
  15 * (if raceCount row = 4 then 1 else 0) + 30 * (if raceCount row = 5 then 1 else 0)

/-- The descending order on integers used by `nlargest`. -/
def intGe (a b : Int) : Prop := b ≤ a

instance : DecidableRel intGe := fun a b => inferInstanceAs (Decidable (b ≤ a))

instance : IsTotal Int intGe := ⟨fun a b => (le_total b a).imp id id⟩

instance : IsTrans Int intGe := ⟨fun _ _ _ h1 h2 => le_trans h2 h1⟩

instance : IsAntisymm Int intGe := ⟨fun _ _ h1 h2 => le_antisymm h2 h1⟩

/-- Embedding of `x.nlargest(3).sum()`: the sum of the first three values in
descending order (`NaN` cells dropped). -/
def top3Sum (l : List Int) : Int :=
  ((l.insertionSort intGe).take 3).sum

/-- The `Total` column: `nlargest(3).sum()` over the points columns plus the
participation bonus. -/
def total (row : SeriesRow) : Int := top3Sum (presentPoints row) + bonus row

/-- A row of the final standing: the joined row together with the added
columns `Top1_Rank..Topn_Rank`, `Bonus`, `Total` and `Rank`. -/
structure RankedRow where
  base : SeriesRow
  tops : List (Option Int)
  bonusC : Int
  totalC : Int
  rankC : Nat
  deriving DecidableEq

/-- The Python sort/rank tuple of a row (line 122 of `analyse.py`):
`(Total, -Top1_Rank, …, -Topn_Rank)` where a `NaN` tie-break cell becomes
`float(inf)`; an entry `none` stands for `inf`. -/
def rankKey (r : RankedRow) : List (Option Int) :=
  some r.totalC :: r.tops.map (Option.map fun x => -x)

/-- Python `<` on one tuple entry, where `none` is `float(inf)`. -/
def entLtB : Option Int → Option Int → Bool
  | some x, some y => decide (x < y)
  | some _, none => true
  | none, _ => false

/-- Python `<` on equal-length tuples of entries: lexicographic. -/
def tupLtB : List (Option Int) → List (Option Int) → Bool
  | _, [] => false
  | [], _ :: _ => true
  | a :: as, b :: bs => entLtB a b || (a == b && tupLtB as bs)

/-- Comparator of `df.sort_values(by=[Total, Top1_Rank, …], ascending=[False,
True, …])`: `Total` descending first, then each tie-break column ascending
with `NaN` placed last. -/
def ascEntLeB : Option Int → Option Int → Bool
  | some x, some y => decide (x ≤ y)
  | some _, none => true
  | none, none => true
  | none, some _ => false

/-- Lexicographic `is before or tied` over the ascending tie-break columns. -/
def ascColsLeB : List (Option Int) → List (Option Int) → Bool
  | [], _ => true
  | _ :: _, [] => true
  | a :: as, b :: bs => if a == b then ascColsLeB as bs else ascEntLeB a b

/-- Row comparator of the `sort_values` call on the augmented table. -/
def rowLeB (a b : RankedRow) : Bool :=
  if a.totalC == b.totalC then ascColsLeB a.tops b.tops else decide (b.totalC < a.totalC)

/-- Embedding of `calculate_ranks_and_totals` on a joined table with `n`
events: add the tie-break, bonus and total columns, sort by
`[Total desc, Top1_Rank asc, …]`, and assign `Rank` as the pandas
`rank(method=min, ascending=False)` of the Python tuples
`(Total, -Top1_Rank, …)`: one plus the number of rows with a strictly
greater tuple. -/
def calculate_ranks_and_totals (n : Nat) (df : List SeriesRow) : List RankedRow :=
  let aug := df.map fun row =>
    ({ base := row, tops := topRanks n row, bonusC := bonus row,
       totalC := total row, rankC := 0 } : RankedRow)
  let sorted := aug.insertionSort fun a b => rowLeB a b = true
  let keys := sorted.map rankKey
  sorted.map fun r => { r with rankC := 1 + keys.countP fun k2 => tupLtB (rankKey r) k2 }

/-! ### Specification-side orders for the final ranking claims -/

/-- Modelled from the spec: one tie-break entry `Topk_Rank` is strictly better
than another when both are present and it is smaller, or when it is present
and the other is missing (a missing value is worse than any present value). -/
def topEntBetterB : Option Int → Option Int → Bool
  | some x, some y => decide (x < y)
  | some _, none => true
  | _, _ => false

/-- Modelled from the spec: lexicographically strictly better tie-break tuple. -/
def topsBetterB : List (Option Int) → List (Option Int) → Bool
  | a :: as, b :: bs => topEntBetterB a b || (a == b && topsBetterB as bs)
  | _, _ => false

/-- Modelled from the spec: row `r` has a strictly better composite key than
row `s` — strictly greater `Total`, or equal `Total` and a lexicographically
better tie-break tuple with missing entries worse than present ones. -/
def specKeyGtB (r s : RankedRow) : Bool :=
  decide (s.totalC < r.totalC) || (r.totalC == s.totalC && topsBetterB r.tops s.tops)

/-- Modelled from the spec: the `k`-th smallest element of a list
(1-based), i.e. entry `k - 1` of the list sorted ascending. -/
def kthSmallest (l : List Int) (k : Nat) : Option Int :=
  (l.insertionSort (· ≤ ·))[k - 1]?

/-! ### Age-group ranking (`analyse.py`, `calculate_points_for_year`, lines 168-176) -/

/-- The age-group lookup: the left-merge of the standing with the age-group
table assigns each name the `AgeGroup` of its first match, `NaN` when the
name is absent from the table. -/
def agLookup (ag : List (String × String)) (x : String) : Option String :=
  (ag.find? fun p => p.1 == x).map (·.2)

/-- One row of the standing after the age-group merge: the ranked row, its
age group, and the raw `Rank_AG` produced by
`groupby(AgeGroup)[Total].rank(method=min, ascending=False)` — `none` for a
row whose group key is `NaN` (group-by drops it). -/
structure AgRow where
  base : RankedRow
  ageGroup : Option String
  rankAG : Option Nat
  deriving DecidableEq

/-- The `min`-method rank of row `r` inside its age group `g`: one plus the
number of rows of the same group with a strictly greater `Total`. -/
def agRankVal (table : List RankedRow) (ag : List (String × String))
    (r : RankedRow) (g : String) : Nat :=
  1 + table.countP fun s =>
    (agLookup ag s.base.name == some g) && decide (r.totalC < s.totalC)

/-- Embedding of the group-by rank: within the group of rows sharing the same
age group, rank descending by `Total` with the `min` method. -/
def rankAGs (table : List RankedRow) (ag : List (String × String)) : List AgRow :=
  table.map fun r =>
    match agLookup ag r.base.name with
    | some g => ⟨r, some g, some (agRankVal table ag r g)⟩
    | none => ⟨r, none, none⟩

/-- Embedding of `Rank_AG.astype(int).astype(str) + " (" + AgeGroup + ")"`:
`astype(int)` raises on a `NaN` cell, so the whole step fails (`none`) as soon
as one row has no age-group rank; otherwise every row receives the combined
display string. -/
def formatRankAG (rows : List AgRow) : Option (List (RankedRow × String)) :=
  if rows.all fun r => r.rankAG.isSome then
    some (rows.map fun r =>
      (r.base, toString (r.rankAG.getD 0) ++ " (" ++ r.ageGroup.getD "" ++ ")"))
  else none

/-! ### Concrete tables used in closed statements -/

/-- A joined row of a participant who contested one of two events, event rank 5. -/
def soloRow : SeriesRow := ⟨"A", [some 100, none], [some 5, none]⟩

/-- A joined row of a participant with strictly positive points in four events. -/
def quadRow : SeriesRow :=
  ⟨"Q", [some 10, some 20, some 30, some 40, none], [some 1, some 2, some 3, some 4, none]⟩

/-- A cleaned result table of one small event. -/
def demoEvent : List ParticipantResult := [⟨"a", 3, 0⟩, ⟨"b", 1, 0⟩, ⟨"c", 2, 0⟩]

/-- A joined two-event season table of four participants with ties. -/
def demoSeason : List SeriesRow :=
  [⟨"A", [some 250, some 240], [some 1, some 2]⟩,
   ⟨"B", [some 240, some 250], [some 2, some 1]⟩,
   ⟨"C", [some 230, none], [some 3, none]⟩,
   ⟨"D", [some 230, none], [some 3, none]⟩]

/-- The final standing of the demo season. -/
def demoStanding : List RankedRow := calculate_ranks_and_totals 2 demoSeason

/-- A scored table of one event. -/
def demoEvTableA : List EventRow := [⟨"A", 250, 1⟩, ⟨"B", 240, 2⟩]

/-- A scored table of a second event. -/
def demoEvTableB : List EventRow := [⟨"B", 250, 1⟩, ⟨"C", 240, 2⟩]

/-! ## Theorems -/

set_option maxRecDepth 10000 in
/-- C7 (counterexample to the stated length): the points curve built by
`_get_points_distribution` has 149 entries, which is not approximately 185
(it misses that mark by more than ten percent). -/
theorem C7_curve_length_counterexample :
    points_distribution.length = 149
    ∧ ¬ (167 ≤ points_distribution.length ∧ points_distribution.length ≤ 203) := by
  exact ⟨by rfl, by decide⟩

set_option maxRecDepth 10000 in
/-- C7 (amended): the points curve is the fixed monotonically non-increasing
sequence 250, 240, then steps of 5 down to 170, then steps of 2 down to 100,
then steps of 1 down to 1, with a total length of 149 entries. -/
theorem C7_curve_structure :
    nonIncreasing points_distribution = true
    ∧ points_distribution.length = 149
    ∧ points_distribution.take 2 = [250, 240]
    ∧ stepChain 5 ((points_distribution.drop 2).take 13) = true
    ∧ points_distribution[14]? = some 170
    ∧ stepChain 2 ((points_distribution.drop 14).take 36) = true
    ∧ points_distribution[49]? = some 100
    ∧ stepChain 1 (points_distribution.drop 49) = true
    ∧ points_distribution.getLast? = some 1 := by
  refine ⟨?_, ?_, ?_, ?_, ?_, ?_, ?_, ?_, ?_⟩ <;> rfl

/-- Helper: the last entry of the first `k` elements of a nonempty list. -/
theorem getLast?_take_pos {α : Type} (l : List α) (k : Nat) (hk : 0 < k) (hl : l ≠ []) :
    (l.take k).getLast? = l[min k l.length - 1]? := by
  rw [List.getLast?_eq_getElem?, List.length_take, List.getElem?_take, if_pos]
  have : 0 < l.length := List.length_pos.mpr hl
  omega

/-- C2 (counterexample): the participant `soloRow` contested one of two
events, yet its `Top2_Rank` is defined: `nsmallest(2).iloc[-1]` clamps to the
worst present rank instead of producing the claimed undefined value. -/
theorem C2_topk_clamped_counterexample :
    (presentRanks soloRow).length < 2 ∧ topRank 2 soloRow = some 5
    ∧ topRank 2 soloRow ≠ none := by
  exact ⟨by decide, by decide, by decide⟩

/-- C2 (amended): for `k ≥ 1`, `Topk_Rank` equals the `k`-th smallest present
per-event rank when at least `k` events were contested; when the participant
contested `m` events with `1 ≤ m < k` it equals the `m`-th smallest (the
worst) present rank; it is undefined only when no event was contested. -/
theorem C2_topk_rank (row : SeriesRow) (k : Nat) (hk : 1 ≤ k) :
    (presentRanks row = [] → topRank k row = none)
    ∧ (k ≤ (presentRanks row).length → topRank k row = kthSmallest (presentRanks row) k)
    ∧ ((presentRanks row).length < k → presentRanks row ≠ [] →
        topRank k row = kthSmallest (presentRanks row) (presentRanks row).length) := by
  have hlen : ((presentRanks row).insertionSort (· ≤ ·)).length = (presentRanks row).length :=
    List.length_insertionSort _ _
  have hne : presentRanks row ≠ [] →
      (presentRanks row).insertionSort (· ≤ ·) ≠ [] := by
    intro h h0
    rw [h0] at hlen
    exact h (List.length_eq_zero.mp hlen.symm)
  refine ⟨fun h => by simp [topRank, nsmallestLast, h], fun hkm => ?_, fun hmk hne2 => ?_⟩
  · have hpos : 0 < (presentRanks row).length := by omega
    unfold topRank nsmallestLast kthSmallest
    rw [getLast?_take_pos _ k (by omega) (hne (by intro h0; rw [h0] at hpos; simp at hpos)), hlen]
    congr 1
    omega
  · unfold topRank nsmallestLast kthSmallest
    rw [getLast?_take_pos _ k (by omega) (hne hne2), hlen]
    congr 1
    have : 0 < (presentRanks row).length := List.length_pos.mpr hne2
    omega

/-- Witness for C2: the corrected statement instantiated at the solo
participant and `k = 2` — `Top2_Rank` clamps to the first (and only) smallest
present rank. -/
theorem C2_topk_rank_witness :
    topRank 2 soloRow = kthSmallest (presentRanks soloRow) (presentRanks soloRow).length :=
  (C2_topk_rank soloRow 2 (by decide)).2.2 (by decide) (by decide)

/-- C3: the `Total` of every participant is the sum of the three largest
present per-event point values plus the bonus; a participant with at most
three present events sums exactly the points they have, with no contribution
from absent events. -/
theorem C3_total_top3 (row : SeriesRow) :
    ((presentPoints row).length ≤ 3 → total row = (presentPoints row).sum + bonus row)
    ∧ ∃ best rest : List Int,
        (presentPoints row).Perm (best ++ rest)
        ∧ best.length = min 3 (presentPoints row).length
        ∧ (∀ a ∈ best, ∀ b ∈ rest, b ≤ a)
        ∧ total row = best.sum + bonus row := by
  have hperm : ((presentPoints row).insertionSort intGe).Perm (presentPoints row) :=
    List.perm_insertionSort _ _
  have hsorted : List.Sorted intGe ((presentPoints row).insertionSort intGe) :=
    List.sorted_insertionSort _ _
  constructor
  · intro hle
    have hl2 : ((presentPoints row).insertionSort intGe).length ≤ 3 := by
      rw [hperm.length_eq]; exact hle
    unfold total top3Sum
    rw [List.take_of_length_le hl2, hperm.sum_eq]
  · refine ⟨((presentPoints row).insertionSort intGe).take 3,
        ((presentPoints row).insertionSort intGe).drop 3, ?_, ?_, ?_, ?_⟩
    · rw [List.take_append_drop]
      exact hperm.symm
    · rw [List.length_take, hperm.length_eq]
    · have hp : List.Pairwise intGe ((presentPoints row).insertionSort intGe) := hsorted
      rw [← List.take_append_drop 3 ((presentPoints row).insertionSort intGe)] at hp
      intro a ha b hb
      exact (List.pairwise_append.mp hp).2.2 a ha b hb
    · rfl

/-- Witness for C3: the solo participant's total is their single score plus
the (zero) bonus. -/
theorem C3_total_witness : total soloRow = (presentPoints soloRow).sum + bonus soloRow :=
  (C3_total_top3 soloRow).1 (by decide)

/-- C4: the participation bonus computed by `calculate_ranks_and_totals` is a
function of `race_count` (the number of events with strictly positive points)
alone, and equals 0 for `race_count ≤ 3`, 15 for `race_count = 4` and 30 for
`race_count = 5`. -/
theorem C4_bonus_step_function (r1 r2 row : SeriesRow) :
    (raceCount r1 = raceCount r2 → bonus r1 = bonus r2)
    ∧ (raceCount row ≤ 3 → bonus row = 0)
    ∧ (raceCount row = 4 → bonus row = 15)
    ∧ (raceCount row = 5 → bonus row = 30) := by
  refine ⟨fun h => by simp only [bonus, h], fun h => ?_, fun h => ?_, fun h => ?_⟩
  · have h4 : raceCount row ≠ 4 := by omega
    have h5 : raceCount row ≠ 5 := by omega
    simp [bonus, h4, h5]
  · simp [bonus, h]
  · simp [bonus, h]

/-- Witness for C4: the demo participant with positive points in exactly four
events receives the 15-point bonus. -/
theorem C4_bonus_witness : raceCount quadRow = 4 ∧ bonus quadRow = 15 :=
  ⟨by decide, (C4_bonus_step_function quadRow quadRow quadRow).2.2.1 (by decide)⟩

/-- Helper: destructing one indexed element of the scorer's zipped output. -/
theorem zip3_getElem? {α β γ δ : Type} (f : α × β × γ → δ) (as : List α) (bs : List β)
    (cs : List γ) (i : Nat) (d : δ) (h : ((as.zip (bs.zip cs)).map f)[i]? = some d) :
    ∃ a b c, as[i]? = some a ∧ bs[i]? = some b ∧ cs[i]? = some c ∧ f (a, b, c) = d := by
  rw [List.getElem?_map] at h
  cases hz : (as.zip (bs.zip cs))[i]? with
  | none => rw [hz] at h; simp at h
  | some x =>
      rw [hz] at h
      simp only [Option.map_some'] at h
      obtain ⟨h1, h2⟩ := List.getElem?_zip_eq_some.mp hz
      obtain ⟨h3, h4⟩ := List.getElem?_zip_eq_some.mp h2
      refine ⟨x.1, x.2.1, x.2.2, h1, h3, h4, ?_⟩
      cases h
      rfl

/-- Helper: indexed characterization of the event scorer's output: the row at
position `i` of the sorted order has rank `i + 1`, the curve value at index
`i` while the curve lasts, and 1 point afterwards. -/
theorem calculate_points_getElem? (usePos : Bool) (rows : List ParticipantResult) (i : Nat)
    (s : EventScore) (h : (calculate_points usePos rows)[i]? = some s) :
    s.rank = i + 1
    ∧ (i < points_distribution.length → points_distribution[i]? = some s.points)
    ∧ (points_distribution.length ≤ i → s.points = 1) := by
  simp only [calculate_points] at h
  obtain ⟨a, b, c, ha, hb, hc, hfabc⟩ := zip3_getElem? _ _ _ _ _ _ h
  have hi : i < (rows.insertionSort (resultLe usePos)).length := by
    obtain ⟨hlt, -⟩ := List.getElem?_eq_some_iff.mp hc
    simpa using hlt
  rw [List.getElem?_range' 1 1 hi] at hc
  have hc' : c = 1 + 1 * i := by
    exact (Option.some.injEq _ _).mp hc.symm
  have hta : (points_distribution.take
      (min (rows.insertionSort (resultLe usePos)).length points_distribution.length)).length
      = min (rows.insertionSort (resultLe usePos)).length points_distribution.length := by
    rw [List.length_take]
    omega
  have hsr : s.rank = c := by rw [← hfabc]
  have hsp : s.points = b := by rw [← hfabc]
  rw [List.getElem?_append, hta] at hb
  refine ⟨by omega, ?_, ?_⟩
  · intro hiL
    rw [if_pos (by omega)] at hb
    rw [List.getElem?_take, if_pos (by omega)] at hb
    rw [hsp]
    exact hb
  · intro hiL
    rw [if_neg (by omega)] at hb
    rw [List.getElem?_replicate, if_pos (by omega)] at hb
    rw [hsp]
    exact (Option.some.injEq _ _).mp hb.symm

/-- C5: every scored row of an event receives the points-curve value at index
`rank - 1` while the rank is at most the curve length, and exactly 1 point
(never zero) when the rank exceeds the curve length. -/
theorem C5_points_assignment (usePos : Bool) (rows : List ParticipantResult)
    (s : EventScore) (hs : s ∈ calculate_points usePos rows) :
    1 ≤ s.rank
    ∧ (s.rank ≤ points_distribution.length →
        points_distribution[s.rank - 1]? = some s.points)
    ∧ (points_distribution.length < s.rank → s.points = 1) := by
  obtain ⟨i, hi⟩ := List.mem_iff_getElem?.mp hs
  obtain ⟨hrank, hlt, hge⟩ := calculate_points_getElem? usePos rows i s hi
  refine ⟨by omega, fun h => ?_, fun h => ?_⟩
  · have h1 : i < points_distribution.length := by omega
    have h2 := hlt h1
    rw [hrank]
    simpa using h2
  · exact hge (by omega)

set_option maxRecDepth 40000 in
/-- Witness for C5: in the demo event the rank-1 participant receives the
head value of the curve, 250 points. -/
theorem C5_points_witness : points_distribution[0]? = some (250 : Int) := by
  have h := C5_points_assignment false demoEvent ⟨⟨"b", 1, 0⟩, 250, 1⟩ (by decide)
  exact h.2.1 (by decide)

/-- Helper: projections of the scorer's zipped output. -/
theorem zip3_map_proj {α β γ : Type} (as : List α) (bs : List β) (cs : List γ)
    (h1 : bs.length = as.length) (h2 : cs.length = as.length) :
    ((as.zip (bs.zip cs)).map fun x => x.1) = as
    ∧ ((as.zip (bs.zip cs)).map fun x => x.2.2) = cs := by
  constructor
  · show ((as.zip (bs.zip cs)).map Prod.fst) = as
    rw [List.map_fst_zip]
    rw [List.length_zip]
    omega
  · show ((as.zip (bs.zip cs)).map (Prod.snd ∘ Prod.snd)) = cs
    rw [← List.map_map, List.map_snd_zip, List.map_snd_zip]
    · omega
    · rw [List.length_zip]
      omega

/-- C6: the event scorer assigns ranks that are exactly the sequence
`1..N` in the order sorted ascending by `(time_or_position, secondary_key)`;
the underlying rows are a permutation of the input, the output order is
sorted, and the rank column has no gaps or repeats. -/
theorem C6_ranks_sequence (usePos : Bool) (rows : List ParticipantResult) :
    ((calculate_points usePos rows).map fun s => s.rank) = List.range' 1 rows.length
    ∧ ((calculate_points usePos rows).map fun s => s.base).Perm rows
    ∧ List.Sorted (resultLe usePos) ((calculate_points usePos rows).map fun s => s.base)
    ∧ ((calculate_points usePos rows).map fun s => s.rank).Nodup := by
  have hsl : (rows.insertionSort (resultLe usePos)).length = rows.length :=
    List.length_insertionSort _ _
  have hta : (points_distribution.take
      (min (rows.insertionSort (resultLe usePos)).length points_distribution.length)).length
      = min (rows.insertionSort (resultLe usePos)).length points_distribution.length := by
    rw [List.length_take]
    omega
  have hpts : (points_distribution.take
        (min (rows.insertionSort (resultLe usePos)).length points_distribution.length)
      ++ List.replicate ((rows.insertionSort (resultLe usePos)).length
        - (points_distribution.take
            (min (rows.insertionSort (resultLe usePos)).length
              points_distribution.length)).length) (1 : Int)).length
      = (rows.insertionSort (resultLe usePos)).length := by
    rw [List.length_append, List.length_replicate, hta]
    omega
  have hrng : (List.range' 1 (rows.insertionSort (resultLe usePos)).length).length
      = (rows.insertionSort (resultLe usePos)).length := by
    rw [List.length_range']
  obtain ⟨hfst, hsnd⟩ := zip3_map_proj (rows.insertionSort (resultLe usePos)) _ _ hpts hrng
  have hbase : ((calculate_points usePos rows).map fun s => s.base)
      = rows.insertionSort (resultLe usePos) := by
    simp only [calculate_points]
    rw [List.map_map]
    exact hfst
  have hrank : ((calculate_points usePos rows).map fun s => s.rank)
      = List.range' 1 rows.length := by
    simp only [calculate_points]
    rw [List.map_map]
    rw [← hsl]
    exact hsnd
  refine ⟨hrank, ?_, ?_, ?_⟩
  · rw [hbase]
    exact List.perm_insertionSort _ _
  · rw [hbase]
    exact List.sorted_insertionSort _ _
  · rw [hrank]
    exact List.nodup_range' 1 rows.length

/-- C10: `calculate_ranks_and_totals` only adds columns: every
(name, per-event points, per-event ranks) triple of the input table appears
unchanged in the output, as a permutation of the input triples. -/
theorem C10_frame_preserved (n : Nat) (df : List SeriesRow) :
    ((calculate_ranks_and_totals n df).map fun r =>
        (r.base.name, r.base.points, r.base.ranks)).Perm
      (df.map fun row => (row.name, row.points, row.ranks)) := by
  simp only [calculate_ranks_and_totals, List.map_map]
  have h2 := List.perm_insertionSort (fun a b : RankedRow => rowLeB a b = true)
    (df.map fun row => (⟨row, topRanks n row, bonus row, total row, 0⟩ : RankedRow))
  have h3 := h2.map fun r : RankedRow => (r.base.name, r.base.points, r.base.ranks)
  rw [List.map_map] at h3
  exact h3

/-- Helper: boolean equality of values with lawful `BEq` is the decision of
propositional equality. -/
theorem beq_eq_decide {α : Type} [BEq α] [LawfulBEq α] [DecidableEq α] (a b : α) :
    (a == b) = decide (a = b) := by
  by_cases h : a = b
  · subst h
    simp
  · have h1 : (a == b) = false := by
      cases hd : a == b
      · rfl
      · exact absurd (eq_of_beq hd) h
    rw [h1, decide_eq_false h]

/-- Helper: the tie-break column list always has one entry per event. -/
theorem topRanks_length (n : Nat) (row : SeriesRow) : (topRanks n row).length = n := by
  simp [topRanks]

/-- Helper: when a participant has at least one present per-event rank, every
tie-break column `Topk_Rank` of that participant is present as well. -/
theorem topRanks_isSome {n : Nat} {row : SeriesRow} (h : presentRanks row ≠ []) :
    ∀ t ∈ topRanks n row, t.isSome = true := by
  intro t ht
  obtain ⟨i, hi, rfl⟩ := List.mem_map.mp ht
  unfold topRank nsmallestLast
  apply List.getLast?_isSome.mpr
  cases hs : (presentRanks row).insertionSort (· ≤ ·) with
  | nil =>
      exfalso
      have hlen : ((presentRanks row).insertionSort (· ≤ ·)).length = (presentRanks row).length :=
        List.length_insertionSort _ _
      rw [hs] at hlen
      exact h (List.length_eq_zero.mp hlen.symm)
  | cons a tl =>
      rw [List.take_succ_cons]
      exact List.cons_ne_nil _ _

/-- Helper: on all-present tie-break columns of equal length, the Python
comparison of the negated columns (with `inf` for `NaN`) agrees with the
specification's missing-is-worse comparison of the plain columns. -/
theorem tupLtB_neg_eq_topsBetterB : ∀ (as bs : List (Option Int)), as.length = bs.length →
    (∀ t ∈ as, t.isSome = true) → (∀ t ∈ bs, t.isSome = true) →
    tupLtB (as.map (Option.map fun x => -x)) (bs.map (Option.map fun x => -x))
      = topsBetterB bs as
  | [], [], _, _, _ => rfl
  | [], _ :: _, h, _, _ => by simp at h
  | _ :: _, [], h, _, _ => by simp at h
  | a :: as, b :: bs, h, ha, hb => by
      obtain ⟨x, rfl⟩ := Option.isSome_iff_exists.mp (ha a (List.mem_cons_self a as))
      obtain ⟨y, rfl⟩ := Option.isSome_iff_exists.mp (hb b (List.mem_cons_self b bs))
      have hIH := tupLtB_neg_eq_topsBetterB as bs (by simpa using h)
        (fun t ht => ha t (List.mem_cons_of_mem _ ht))
        (fun t ht => hb t (List.mem_cons_of_mem _ ht))
      show (entLtB (some (-x)) (some (-y))
          || ((some (-x) == some (-y)) && tupLtB (as.map (Option.map fun x => -x))
                (bs.map (Option.map fun x => -x))))
        = (topEntBetterB (some y) (some x) || ((some y == some x) && topsBetterB bs as))
      rw [hIH]
      have e1 : entLtB (some (-x)) (some (-y)) = topEntBetterB (some y) (some x) := by
        show decide (-x < -y) = decide (y < x)
        exact decide_eq_decide.mpr (by omega)
      have e2 : ((some (-x) : Option Int) == some (-y)) = ((some y : Option Int) == some x) := by
        rw [beq_eq_decide, beq_eq_decide]
        apply decide_eq_decide.mpr
        constructor
        · intro hxy
          have : -x = -y := by injection hxy
          have : x = y := by omega
          rw [this]
        · intro hxy
          have : y = x := by injection hxy
          rw [this]
      rw [e1, e2]

/-- Helper: no tie-break tuple is strictly better than itself. -/
theorem topsBetterB_irrefl : ∀ l : List (Option Int), topsBetterB l l = false
  | [] => rfl
  | a :: as => by
      have h1 : topEntBetterB a a = false := by
        cases a with
        | none => rfl
        | some x => simp [topEntBetterB]
      show (topEntBetterB a a || ((a == a) && topsBetterB as as)) = false
      rw [h1, topsBetterB_irrefl as]
      simp

/-- Helper: no composite key is strictly better than itself. -/
theorem specKeyGtB_irrefl (r : RankedRow) : specKeyGtB r r = false := by
  unfold specKeyGtB
  rw [topsBetterB_irrefl]
  simp

/-- Helper: transitivity of the entry-wise missing-is-worse comparison. -/
theorem topEntBetterB_trans : ∀ {a b c : Option Int},
    topEntBetterB a b = true → topEntBetterB b c = true → topEntBetterB a c = true
  | some x, some y, some z, h1, h2 => by
      simp only [topEntBetterB, decide_eq_true_eq] at *
      omega
  | some _, some _, none, _, _ => by simp [topEntBetterB]
  | some _, none, _, _, h2 => by simp [topEntBetterB] at h2
  | none, _, _, h1, _ => by simp [topEntBetterB] at h1

/-- Helper: transitivity of the lexicographic tie-break comparison. -/
theorem topsBetterB_trans : ∀ {a b c : List (Option Int)},
    topsBetterB a b = true → topsBetterB b c = true → topsBetterB a c = true
  | [], _, _, h1, _ => by simp [topsBetterB] at h1
  | _ :: _, [], _, h1, _ => by simp [topsBetterB] at h1
  | _ :: _, _ :: _, [], _, h2 => by simp [topsBetterB] at h2
  | a :: as, b :: bs, c :: cs, h1, h2 => by
      simp only [topsBetterB, Bool.or_eq_true, Bool.and_eq_true, beq_iff_eq] at h1 h2 ⊢
      rcases h1 with h1 | ⟨rfl, h1t⟩
      · rcases h2 with h2 | ⟨rfl, h2t⟩
        · exact Or.inl (topEntBetterB_trans h1 h2)
        · exact Or.inl h1
      · rcases h2 with h2 | ⟨rfl, h2t⟩
        · exact Or.inl h2
        · exact Or.inr ⟨rfl, topsBetterB_trans h1t h2t⟩

/-- Helper: transitivity of the composite-key comparison. -/
theorem specKeyGtB_trans {t r s : RankedRow} (h1 : specKeyGtB t r = true)
    (h2 : specKeyGtB r s = true) : specKeyGtB t s = true := by
  simp only [specKeyGtB, Bool.or_eq_true, Bool.and_eq_true, decide_eq_true_eq,
    beq_iff_eq] at h1 h2 ⊢
  rcases h1 with h1 | ⟨h1e, h1t⟩
  · rcases h2 with h2 | ⟨h2e, h2t⟩
    · exact Or.inl (by omega)
    · exact Or.inl (by omega)
  · rcases h2 with h2 | ⟨h2e, h2t⟩
    · exact Or.inl (by omega)
    · exact Or.inr ⟨by omega, topsBetterB_trans h1t h2t⟩

/-- Helper: a strict count comparison — if everything counted by `p` is
counted by `q` and some member of the list is counted by `q` alone, `q`
counts strictly more. -/
theorem countP_strict_lt {α : Type} (l : List α) (p q : α → Bool) (x : α) (hx : x ∈ l)
    (hmono : ∀ y, p y = true → q y = true) (hpx : p x = false) (hqx : q x = true) :
    l.countP p < l.countP q := by
  induction l with
  | nil => cases hx
  | cons a t ih =>
      rw [List.countP_cons, List.countP_cons]
      rcases List.mem_cons.mp hx with rfl | hxt
      · have h1 : t.countP p ≤ t.countP q :=
          List.countP_mono_left fun y _ hy => hmono y hy
        rw [hpx, hqx, if_neg (by simp), if_pos rfl]
        omega
      · have h2 := ih hxt
        have h3 : (if p a = true then 1 else 0) ≤ (if q a = true then 1 else 0) := by
          by_cases hpa : p a = true
          · rw [if_pos hpa, if_pos (hmono a hpa)]
          · rw [if_neg hpa]
            split <;> omega
        omega

/-- Helper: membership characterization of the final standing — every output
row is an input row of the joined table augmented with its tie-break columns,
bonus and total. -/
theorem mem_calculate_ranks_and_totals {n : Nat} {df : List SeriesRow} {r : RankedRow}
    (h : r ∈ calculate_ranks_and_totals n df) :
    r.base ∈ df ∧ r.tops = topRanks n r.base ∧ r.totalC = total r.base
    ∧ r.bonusC = bonus r.base := by
  simp only [calculate_ranks_and_totals] at h
  obtain ⟨r0, hr0, rfl⟩ := List.mem_map.mp h
  have hr0' := (List.mem_insertionSort _).mp hr0
  obtain ⟨row, hrow, rfl⟩ := List.mem_map.mp hr0'
  exact ⟨hrow, rfl, rfl, rfl⟩

/-- Helper: the `Rank` value of every output row is one plus the number of
rows of the standing whose Python rank tuple is strictly greater. -/
theorem rankC_eq {n : Nat} {df : List SeriesRow} {r : RankedRow}
    (h : r ∈ calculate_ranks_and_totals n df) :
    r.rankC = 1 + (calculate_ranks_and_totals n df).countP
      fun s => tupLtB (rankKey r) (rankKey s) := by
  simp only [calculate_ranks_and_totals] at h ⊢
  obtain ⟨r0, hr0, rfl⟩ := List.mem_map.mp h
  simp only [List.countP_map]
  rfl

/-- C1: on every joined season table (each participant has at least one
present per-event rank), the final `Rank` is the min-method competition rank
over the composite key (`Total` descending, then the tie-break ladder with a
missing entry worse than any present one): each row's rank is one plus the
number of strictly better rows, equal composite keys receive equal ranks,
and a strictly greater `Total` — or an equal `Total` with a lexicographically
better tie-break tuple — yields a strictly smaller rank. -/
theorem C1_final_ranking (n : Nat) (df : List SeriesRow)
    (hpr : ∀ row ∈ df, presentRanks row ≠ []) :
    (∀ r ∈ calculate_ranks_and_totals n df,
        r.rankC = 1 + (calculate_ranks_and_totals n df).countP fun s => specKeyGtB s r)
    ∧ (∀ r ∈ calculate_ranks_and_totals n df, ∀ s ∈ calculate_ranks_and_totals n df,
        r.totalC = s.totalC → r.tops = s.tops → r.rankC = s.rankC)
    ∧ (∀ r ∈ calculate_ranks_and_totals n df, ∀ s ∈ calculate_ranks_and_totals n df,
        s.totalC < r.totalC → r.rankC < s.rankC)
    ∧ (∀ r ∈ calculate_ranks_and_totals n df, ∀ s ∈ calculate_ranks_and_totals n df,
        r.totalC = s.totalC → topsBetterB r.tops s.tops = true → r.rankC < s.rankC) := by
  have hsome : ∀ r ∈ calculate_ranks_and_totals n df, ∀ t ∈ r.tops, t.isSome = true := by
    intro r hr
    obtain ⟨hbase, htops, -, -⟩ := mem_calculate_ranks_and_totals hr
    rw [htops]
    exact topRanks_isSome (hpr r.base hbase)
  have hlen : ∀ r ∈ calculate_ranks_and_totals n df, r.tops.length = n := by
    intro r hr
    obtain ⟨-, htops, -, -⟩ := mem_calculate_ranks_and_totals hr
    rw [htops, topRanks_length]
  have hkey : ∀ r ∈ calculate_ranks_and_totals n df, ∀ s ∈ calculate_ranks_and_totals n df,
      tupLtB (rankKey r) (rankKey s) = specKeyGtB s r := by
    intro r hr s hs
    show (entLtB (some r.totalC) (some s.totalC)
        || ((some r.totalC == some s.totalC)
            && tupLtB (r.tops.map (Option.map fun x => -x))
                 (s.tops.map (Option.map fun x => -x))))
      = specKeyGtB s r
    rw [tupLtB_neg_eq_topsBetterB r.tops s.tops (by rw [hlen r hr, hlen s hs])
      (hsome r hr) (hsome s hs)]
    unfold specKeyGtB
    have e2 : ((some r.totalC : Option Int) == some s.totalC)
        = (s.totalC == r.totalC) := by
      rw [beq_eq_decide, beq_eq_decide]
      apply decide_eq_decide.mpr
      constructor
      · intro hxy
        have : r.totalC = s.totalC := by injection hxy
        omega
      · intro hxy
        rw [hxy]
    rw [e2]
    rfl
  have hrank : ∀ r ∈ calculate_ranks_and_totals n df,
      r.rankC = 1 + (calculate_ranks_and_totals n df).countP fun s => specKeyGtB s r := by
    intro r hr
    rw [rankC_eq hr]
    congr 1
    apply List.countP_congr
    intro s hs
    rw [hkey r hr s hs]
  have hstrict : ∀ r ∈ calculate_ranks_and_totals n df,
      ∀ s ∈ calculate_ranks_and_totals n df,
      specKeyGtB r s = true → r.rankC < s.rankC := by
    intro r hr s hs hgt
    rw [hrank r hr, hrank s hs]
    have := countP_strict_lt (calculate_ranks_and_totals n df)
      (fun t => specKeyGtB t r) (fun t => specKeyGtB t s) r hr
      (fun y hy => specKeyGtB_trans hy hgt) (specKeyGtB_irrefl r) hgt
    omega
  refine ⟨hrank, ?_, ?_, ?_⟩
  · intro r hr s hs he ht
    rw [hrank r hr, hrank s hs]
    congr 1
    apply List.countP_congr
    intro t httbl
    unfold specKeyGtB
    rw [he, ht]
  · intro r hr s hs hlt
    apply hstrict r hr s hs
    unfold specKeyGtB
    simp [hlt]
  · intro r hr s hs he hb
    apply hstrict r hr s hs
    unfold specKeyGtB
    rw [he]
    simp [hb]

set_option maxRecDepth 80000 in
/-- Witness for C1: in the demo standing, the tied leader's rank is one plus
the number of strictly better rows (namely zero). -/
theorem C1_final_ranking_witness :
    (⟨⟨"A", [some 250, some 240], [some 1, some 2]⟩, [some 1, some 2], 0, 490, 1⟩
        : RankedRow).rankC
      = 1 + (calculate_ranks_and_totals 2 demoSeason).countP fun s =>
          specKeyGtB s ⟨⟨"A", [some 250, some 240], [some 1, some 2]⟩,
            [some 1, some 2], 0, 490, 1⟩ :=
  (C1_final_ranking 2 demoSeason (by decide)).1
    ⟨⟨"A", [some 250, some 240], [some 1, some 2]⟩, [some 1, some 2], 0, 490, 1⟩
    (by decide)

set_option maxRecDepth 80000 in
/-- C8 (counterexample): with an empty age-group lookup, the participant of
the one-row standing has no age group, and the age-group-rank computation
does not complete: `astype(int)` on the `NaN` rank raises, modelled as
`none`, instead of leaving the field empty. -/
theorem C8_missing_agegroup_counterexample :
    agLookup [] "A" = none
    ∧ formatRankAG
        (rankAGs (calculate_ranks_and_totals 1 [⟨"A", [some 250], [some 1]⟩]) []) = none := by
  exact ⟨by decide, by decide⟩

/-- C8 (amended): when every participant of the standing is present in the
age-group lookup, the age-group step completes and each participant receives
the display string built from their group-relative `min`-method rank
descending by `Total`; equal totals within a group give equal ranks and a
strictly greater total gives a strictly smaller rank. When any participant is
absent from the lookup, the step raises (`none`) instead of leaving that
field empty. -/
theorem C8_agegroup_rank (table : List RankedRow) (ag : List (String × String)) :
    ((∀ r ∈ table, (agLookup ag r.base.name).isSome = true) →
      formatRankAG (rankAGs table ag) = some ((rankAGs table ag).map fun r =>
        (r.base, toString (r.rankAG.getD 0) ++ " (" ++ r.ageGroup.getD "" ++ ")")))
    ∧ ((∃ r ∈ table, agLookup ag r.base.name = none) →
      formatRankAG (rankAGs table ag) = none)
    ∧ (∀ r ∈ table, ∀ g, agLookup ag r.base.name = some g →
      ⟨r, some g, some (agRankVal table ag r g)⟩ ∈ rankAGs table ag)
    ∧ (∀ r ∈ table, ∀ s ∈ table, ∀ g, agLookup ag r.base.name = some g →
      agLookup ag s.base.name = some g → r.totalC = s.totalC →
      agRankVal table ag r g = agRankVal table ag s g)
    ∧ (∀ r ∈ table, ∀ s ∈ table, ∀ g, agLookup ag r.base.name = some g →
      agLookup ag s.base.name = some g → s.totalC < r.totalC →
      agRankVal table ag r g < agRankVal table ag s g) := by
  refine ⟨?_, ?_, ?_, ?_, ?_⟩
  · intro hall
    unfold formatRankAG
    rw [if_pos]
    rw [List.all_eq_true]
    intro r hr
    obtain ⟨r0, hr0, rfl⟩ := List.mem_map.mp hr
    cases hl : agLookup ag r0.base.name with
    | none =>
        have hsome := hall r0 hr0
        rw [hl] at hsome
        simp at hsome
    | some g => simp [rankAGs, hl]
  · intro ⟨r, hr, hnone⟩
    unfold formatRankAG
    rw [if_neg]
    intro hall
    rw [List.all_eq_true] at hall
    have hm : (⟨r, none, none⟩ : AgRow) ∈ rankAGs table ag := by
      unfold rankAGs
      apply List.mem_map.mpr
      refine ⟨r, hr, ?_⟩
      rw [hnone]
    have := hall _ hm
    simp at this
  · intro r hr g hg
    unfold rankAGs
    apply List.mem_map.mpr
    refine ⟨r, hr, ?_⟩
    rw [hg]
  · intro r hr s hs g hgr hgs he
    unfold agRankVal
    congr 1
    apply List.countP_congr
    intro t httbl
    rw [he]
  · intro r hr s hs g hgr hgs hlt
    unfold agRankVal
    have := countP_strict_lt table
      (fun t => (agLookup ag t.base.name == some g) && decide (r.totalC < t.totalC))
      (fun t => (agLookup ag t.base.name == some g) && decide (s.totalC < t.totalC))
      r hr ?_ ?_ ?_
    · omega
    · intro y hy
      simp only [Bool.and_eq_true, decide_eq_true_eq] at hy ⊢
      exact ⟨hy.1, by omega⟩
    · show (agLookup ag r.base.name == some g && decide (r.totalC < r.totalC)) = false
      rw [decide_eq_false (lt_irrefl _), Bool.and_false]
    · simp only [Bool.and_eq_true, decide_eq_true_eq, beq_iff_eq]
      exact ⟨hgr, hlt⟩

set_option maxRecDepth 80000 in
/-- Witness for C8: with a complete lookup on the demo standing the step
completes; within one group, the tied leaders receive the same group rank. -/
theorem C8_agegroup_rank_witness :
    (formatRankAG (rankAGs (calculate_ranks_and_totals 2 demoSeason)
        [("A", "M40"), ("B", "M40"), ("C", "M50"), ("D", "M50")])).isSome = true := by
  have h := (C8_agegroup_rank (calculate_ranks_and_totals 2 demoSeason)
    [("A", "M40"), ("B", "M40"), ("C", "M50"), ("D", "M50")]).1 (by decide)
  rw [h]
  rfl

/-- Helper: in a clean event table, filtering by a name yields the unique
match found by `find?`, if any. -/
theorem filter_name_eq_of_nodup {x : String} : ∀ {ev : List EventRow}, nodupNames ev →
    ev.filter (fun e => e.name == x) = (ev.find? fun e => e.name == x).toList := by
  intro ev
  induction ev with
  | nil => intro h; rfl
  | cons e tl ih =>
      intro hnd
      have hnd' : nodupNames tl ∧ e.name ∉ tl.map (fun r => r.name) := by
        unfold nodupNames at *
        rw [List.map_cons, List.nodup_cons] at hnd
        exact ⟨hnd.2, hnd.1⟩
      cases hex : (e.name == x) with
      | true =>
          have htl : tl.filter (fun e2 => e2.name == x) = [] := by
            rw [List.filter_eq_nil_iff]
            intro a ha hpa
            have hax : a.name = x := eq_of_beq hpa
            have hexx : e.name = x := eq_of_beq hex
            refine hnd'.2 ?_
            rw [hexx, ← hax]
            exact List.mem_map_of_mem (fun r => r.name) ha
          simp only [List.filter_cons, List.find?_cons, hex, htl]
          rfl
      | false =>
          simp only [List.filter_cons, List.find?_cons, hex]
          exact ih hnd'.1

/-- Helper: under a clean event table, the block that `outerMerge` produces
for one accumulator row carries exactly that row's name. -/
theorem matched_names (ev : List EventRow) (hnd : nodupNames ev) (row : SeriesRow) :
    (matchBlock ev row).map (fun r => r.name) = [row.name] := by
  unfold matchBlock
  rw [filter_name_eq_of_nodup hnd]
  cases ev.find? (fun e => e.name == row.name) <;> rfl

/-- Helper: `find?` on the matched part of `outerMerge`. -/
theorem find?_matched (ev : List EventRow) (hnd : nodupNames ev) (x : String) :
    ∀ acc : List SeriesRow,
    (acc.flatMap (matchBlock ev)).find? (fun r => r.name == x)
    = (acc.find? fun r => r.name == x).map
        (fun row => match ev.find? (fun e => e.name == x) with
          | some e => extRow row e
          | none => padRow row)
  | [] => rfl
  | row :: tl => by
      rw [List.flatMap_cons, List.find?_append]
      by_cases hrx : (row.name == x) = true
      · have hxeq : row.name = x := eq_of_beq hrx
        subst hxeq
        rw [List.find?_cons_of_pos _ (by simp)]
        unfold matchBlock
        rw [filter_name_eq_of_nodup hnd]
        cases hfind : ev.find? (fun e => e.name == row.name) with
        | none =>
            show ([padRow row].find? (fun r => r.name == row.name)).or _ = _
            rw [List.find?_cons_of_pos _ (by simp [padRow])]
            rfl
        | some e =>
            show ([extRow row e].find? (fun r => r.name == row.name)).or _ = _
            rw [List.find?_cons_of_pos _ (by simp [extRow])]
            rfl
      · have h1 : (matchBlock ev row).find? (fun r => r.name == x) = none := by
          rw [List.find?_eq_none]
          intro y hy
          have hyname : y.name = row.name := by
            have hmm := List.mem_map_of_mem (fun r => r.name) hy
            rw [matched_names ev hnd row] at hmm
            simpa using hmm
          intro hpy
          exact hrx (by rw [← hyname]; exact hpy)
        rw [h1, Option.none_or,
          List.find?_cons_of_neg (p := fun r : SeriesRow => r.name == x) _ hrx]
        exact find?_matched ev hnd x tl

/-- Helper: `find?` on the appended fresh rows of `outerMerge`. -/
theorem find?_newRows (k : Nat) (acc : List SeriesRow) (x : String) :
    ∀ ev : List EventRow,
    ((ev.filter fun e => !(acc.any fun row => row.name == e.name)).map (newRow k)).find?
      (fun r => r.name == x)
    = if (acc.any fun row => row.name == x) = true then none
      else (ev.find? fun e => e.name == x).map (newRow k)
  | [] => by
      by_cases h : (acc.any fun row => row.name == x) = true
      · rw [if_pos h]
        rfl
      · rw [if_neg h]
        rfl
  | e :: tl => by
      by_cases hex : (e.name == x) = true
      · have hexx : e.name = x := eq_of_beq hex
        by_cases hax : (acc.any fun row => row.name == x) = true
        · have hcond : (!(acc.any fun row => row.name == e.name)) = false := by
            rw [hexx, hax]
            rfl
          rw [List.filter_cons_of_neg
              (p := fun e2 : EventRow => !(acc.any fun row => row.name == e2.name))
              (by
                show ¬(!(acc.any fun row => row.name == e.name)) = true
                rw [hcond]
                simp)]
          rw [find?_newRows k acc x tl, if_pos hax, if_pos hax]
        · have hax' : (acc.any fun row => row.name == x) = false :=
            Bool.eq_false_iff.mpr hax
          have hcond : (!(acc.any fun row => row.name == e.name)) = true := by
            rw [hexx, hax']
            rfl
          rw [List.filter_cons_of_pos
              (p := fun e2 : EventRow => !(acc.any fun row => row.name == e2.name)) hcond,
            List.map_cons,
            List.find?_cons_of_pos _ (by simpa [newRow] using hex),
            if_neg hax,
            List.find?_cons_of_pos (p := fun e2 : EventRow => e2.name == x) _ hex]
          rfl
      · by_cases hcond : (!(acc.any fun row => row.name == e.name)) = true
        · rw [List.filter_cons_of_pos
              (p := fun e2 : EventRow => !(acc.any fun row => row.name == e2.name)) hcond,
            List.map_cons,
            List.find?_cons_of_neg (p := fun r : SeriesRow => r.name == x) _
              (by simpa [newRow] using hex),
            find?_newRows k acc x tl,
            List.find?_cons_of_neg (p := fun e2 : EventRow => e2.name == x) _ hex]
        · rw [List.filter_cons_of_neg
              (p := fun e2 : EventRow => !(acc.any fun row => row.name == e2.name)) hcond,
            find?_newRows k acc x tl,
            List.find?_cons_of_neg (p := fun e2 : EventRow => e2.name == x) _ hex]

/-- Helper: the matched part of `outerMerge` carries exactly the accumulator's
names, in order. -/
theorem flatMap_matchBlock_names (ev : List EventRow) (hnd : nodupNames ev) :
    ∀ acc : List SeriesRow,
    ((acc.flatMap (matchBlock ev)).map fun r => r.name) = acc.map fun r => r.name
  | [] => rfl
  | row :: tl => by
      rw [List.flatMap_cons, List.map_append, matched_names ev hnd row,
        flatMap_matchBlock_names ev hnd tl, List.map_cons]
      rfl

/-- Helper: one outer-merge step preserves cleanliness of the joined table:
the result's names are free of duplicates. -/
theorem nodup_outerMerge (k : Nat) (acc : List SeriesRow) (ev : List EventRow)
    (hnd : nodupNames ev) (hacc : (acc.map fun r => r.name).Nodup) :
    ((outerMerge k acc ev).map fun r => r.name).Nodup := by
  unfold outerMerge
  rw [List.map_append, flatMap_matchBlock_names ev hnd acc, List.nodup_append]
  refine ⟨hacc, ?_, ?_⟩
  · rw [List.map_map]
    have hsub : List.Sublist
        ((ev.filter fun e => !(acc.any fun row => row.name == e.name)).map
          fun e => e.name)
        (ev.map fun e => e.name) := (List.filter_sublist ev).map _
    exact hsub.nodup hnd
  · intro a ha hb
    rw [List.map_map] at hb
    obtain ⟨e, he, rfl⟩ := List.mem_map.mp hb
    have hcond := (List.mem_filter.mp he).2
    rw [Bool.not_eq_true'] at hcond
    rw [List.any_eq_false] at hcond
    obtain ⟨r0, hr0, hr0name⟩ := List.mem_map.mp ha
    exact hcond r0 hr0 (by simp [hr0name, newRow])

/-- Helper: `find?` characterization of one outer-merge step. -/
theorem find?_outerMerge (k : Nat) (acc : List SeriesRow) (ev : List EventRow)
    (hnd : nodupNames ev) (x : String) :
    (outerMerge k acc ev).find? (fun r => r.name == x)
    = match acc.find? (fun r => r.name == x), ev.find? (fun e => e.name == x) with
      | some row, some e => some (extRow row e)
      | some row, none => some (padRow row)
      | none, some e => some (newRow k e)
      | none, none => none := by
  unfold outerMerge
  rw [List.find?_append, find?_matched ev hnd x acc, find?_newRows k acc x ev]
  cases hacc : acc.find? (fun r => r.name == x) with
  | some row =>
      have hany : (acc.any fun r => r.name == x) = true := by
        rw [List.any_eq_true]
        have hp : (row.name == x) = true :=
          List.find?_some (p := fun r : SeriesRow => r.name == x) hacc
        exact ⟨row, List.mem_of_find?_eq_some hacc, hp⟩
      rw [if_pos hany]
      cases ev.find? (fun e => e.name == x) <;> rfl
  | none =>
      have hany : (acc.any fun r => r.name == x) = false := by
        rw [List.any_eq_false]
        exact List.find?_eq_none.mp hacc
      rw [if_neg (by rw [hany]; simp)]
      cases ev.find? (fun e => e.name == x) <;> rfl

/-- Helper: `find?` characterization of the whole merge fold: an accumulator
row is extended by one lookup column per remaining event; a name absent from
the accumulator but present in some remaining event gets a fresh row padded
with `k` leading `NaN` cells; other names are absent. -/
theorem find?_mergeAllFrom :
    ∀ (evs : List (List EventRow)) (k : Nat) (acc : List SeriesRow),
    (∀ ev ∈ evs, nodupNames ev) → ((acc.map fun r => r.name).Nodup) → ∀ x : String,
    (mergeAllFrom k acc evs).find? (fun r => r.name == x)
    = match acc.find? (fun r => r.name == x) with
      | some row => some ⟨row.name, row.points ++ joinedPoints evs x,
                          row.ranks ++ joinedRanks evs x⟩
      | none =>
          if (evs.any fun ev => ev.any fun e => e.name == x) = true
          then some ⟨x, List.replicate k none ++ joinedPoints evs x,
                     List.replicate k none ++ joinedRanks evs x⟩
          else none
  | [], k, acc, _, _, x => by
      show acc.find? (fun r => r.name == x) = _
      cases hacc : acc.find? (fun r => r.name == x) with
      | some row => simp [joinedPoints, joinedRanks]
      | none => simp
  | ev :: rest, k, acc, hnd, hacc, x => by
      have hndev : nodupNames ev := hnd ev (List.mem_cons_self _ _)
      have hndr : ∀ e ∈ rest, nodupNames e := fun e he => hnd e (List.mem_cons_of_mem _ he)
      show (mergeAllFrom (k + 1) (outerMerge k acc ev) rest).find? _ = _
      rw [find?_mergeAllFrom rest (k + 1) (outerMerge k acc ev) hndr
        (nodup_outerMerge k acc ev hndev hacc) x]
      rw [find?_outerMerge k acc ev hndev x]
      cases haccf : acc.find? (fun r => r.name == x) with
      | some row =>
          cases hevf : ev.find? (fun e => e.name == x) with
          | some e => simp [extRow, joinedPoints, joinedRanks, hevf, List.append_assoc]
          | none => simp [padRow, joinedPoints, joinedRanks, hevf, List.append_assoc]
      | none =>
          cases hevf : ev.find? (fun e => e.name == x) with
          | some e =>
              have hp : (e.name == x) = true :=
                List.find?_some (p := fun e2 : EventRow => e2.name == x) hevf
              have he_name : e.name = x := eq_of_beq hp
              have hany : ((ev :: rest).any fun ev2 => ev2.any fun e2 => e2.name == x)
                  = true := by
                rw [List.any_cons]
                have hev : (ev.any fun e2 => e2.name == x) = true := by
                  rw [List.any_eq_true]
                  exact ⟨e, List.mem_of_find?_eq_some hevf, hp⟩
                rw [hev]
                rfl
              rw [if_pos hany]
              simp [newRow, joinedPoints, joinedRanks, hevf, List.append_assoc, he_name]
          | none =>
              have hevany : (ev.any fun e2 => e2.name == x) = false := by
                rw [List.any_eq_false]
                exact List.find?_eq_none.mp hevf
              rw [List.any_cons, hevany]
              simp only [Bool.false_or]
              by_cases hrany : (rest.any fun ev2 => ev2.any fun e2 => e2.name == x) = true
              · rw [if_pos hrany, if_pos hrany]
                simp [joinedPoints, joinedRanks, hevf, List.replicate_succ',
                  List.append_assoc]
              · rw [if_neg hrany, if_neg hrany]

/-- Helper: `find?` characterization of `merge_race_dataframes`: a name that
appears in some event owns exactly the row of its per-event lookups, other
names are absent from the joined table. -/
theorem find?_merge (evs : List (List EventRow)) (hnd : ∀ ev ∈ evs, nodupNames ev)
    (x : String) :
    (merge_race_dataframes evs).find? (fun r => r.name == x)
    = if (evs.any fun ev => ev.any fun e => e.name == x) = true
      then some ⟨x, joinedPoints evs x, joinedRanks evs x⟩
      else none := by
  cases evs with
  | nil => rfl
  | cons ev rest =>
      have hndev : nodupNames ev := hnd ev (List.mem_cons_self _ _)
      have hndr : ∀ e ∈ rest, nodupNames e := fun e he => hnd e (List.mem_cons_of_mem _ he)
      have hinit : ((ev.map fun e =>
          (⟨e.name, [some e.pts], [some e.evRank]⟩ : SeriesRow)).map
            fun r => r.name).Nodup := by
        rw [List.map_map]
        exact hndev
      show (mergeAllFrom 1 (ev.map fun e => ⟨e.name, [some e.pts], [some e.evRank]⟩)
          rest).find? (fun r => r.name == x) = _
      rw [find?_mergeAllFrom rest 1 _ hndr hinit x]
      have hi2 : (ev.map fun e =>
            (⟨e.name, [some e.pts], [some e.evRank]⟩ : SeriesRow)).find?
          (fun r => r.name == x)
          = (ev.find? fun e => e.name == x).map
              fun e => (⟨e.name, [some e.pts], [some e.evRank]⟩ : SeriesRow) := by
        rw [List.find?_map]
        rfl
      rw [hi2]
      cases hevf : ev.find? (fun e => e.name == x) with
      | some e =>
          have hp : (e.name == x) = true :=
            List.find?_some (p := fun e2 : EventRow => e2.name == x) hevf
          have he_name : e.name = x := eq_of_beq hp
          have hany : ((ev :: rest).any fun ev2 => ev2.any fun e2 => e2.name == x)
              = true := by
            rw [List.any_cons]
            have hev : (ev.any fun e2 => e2.name == x) = true := by
              rw [List.any_eq_true]
              exact ⟨e, List.mem_of_find?_eq_some hevf, hp⟩
            rw [hev]
            rfl
          rw [if_pos hany]
          simp [joinedPoints, joinedRanks, hevf, he_name]
      | none =>
          have hevany : (ev.any fun e2 => e2.name == x) = false := by
            rw [List.any_eq_false]
            exact List.find?_eq_none.mp hevf
          rw [List.any_cons, hevany]
          simp only [Bool.false_or]
          by_cases hrany : (rest.any fun ev2 => ev2.any fun e2 => e2.name == x) = true
          · rw [if_pos hrany, if_pos hrany]
            simp [joinedPoints, joinedRanks, hevf]
          · rw [if_neg hrany, if_neg hrany]
            rfl

/-- Helper: the season total of a joined row depends only on the multiset of
its present per-event points. -/
theorem total_congr {r1 r2 : SeriesRow} (hp : (presentPoints r1).Perm (presentPoints r2)) :
    total r1 = total r2 := by
  unfold total top3Sum bonus raceCount
  have hsort : (presentPoints r1).insertionSort intGe
      = (presentPoints r2).insertionSort intGe := by
    apply List.eq_of_perm_of_sorted (r := intGe)
    · exact (List.perm_insertionSort _ _).trans (hp.trans (List.perm_insertionSort _ _).symm)
    · exact List.sorted_insertionSort _ _
    · exact List.sorted_insertionSort _ _
  rw [hsort, hp.countP_eq]

/-- C9: with at most one row per name per event, the per-participant `Total`
of the merged season table is invariant under permutation of the order in
which the per-event tables are outer-joined. -/
theorem C9_merge_order_invariant (evs evs2 : List (List EventRow))
    (hperm : evs.Perm evs2) (hnd : ∀ ev ∈ evs, nodupNames ev) (x : String) :
    ((merge_race_dataframes evs).find? (fun r => r.name == x)).map total
    = ((merge_race_dataframes evs2).find? (fun r => r.name == x)).map total := by
  have hnd2 : ∀ ev ∈ evs2, nodupNames ev := fun ev he => hnd ev (hperm.mem_iff.mpr he)
  rw [find?_merge evs hnd x, find?_merge evs2 hnd2 x]
  have hany : (evs.any fun ev => ev.any fun e => e.name == x)
      = (evs2.any fun ev => ev.any fun e => e.name == x) := by
    cases h2 : (evs2.any fun ev => ev.any fun e => e.name == x) with
    | true =>
        rw [List.any_eq_true] at h2 ⊢
        obtain ⟨ev, hev, hpv⟩ := h2
        exact ⟨ev, hperm.mem_iff.mpr hev, hpv⟩
    | false =>
        rw [List.any_eq_false] at h2 ⊢
        intro ev hev
        exact h2 ev (hperm.mem_iff.mp hev)
  rw [← hany]
  by_cases hc : (evs.any fun ev => ev.any fun e => e.name == x) = true
  · rw [if_pos hc, if_pos hc]
    rw [Option.map_some', Option.map_some']
    congr 1
    apply total_congr
    show ((joinedPoints evs x).filterMap id).Perm ((joinedPoints evs2 x).filterMap id)
    exact (hperm.map fun ev => (ev.find? fun e => e.name == x).map fun e => e.pts).filterMap id
  · rw [if_neg hc, if_neg hc]

set_option maxRecDepth 80000 in
/-- Witness for C9: merging the two demo events in either order yields the
same total for the participant appearing in both. -/
theorem C9_merge_order_witness :
    ((merge_race_dataframes [demoEvTableA, demoEvTableB]).find?
        (fun r => r.name == "B")).map total
    = ((merge_race_dataframes [demoEvTableB, demoEvTableA]).find?
        (fun r => r.name == "B")).map total :=
  C9_merge_order_invariant [demoEvTableA, demoEvTableB] [demoEvTableB, demoEvTableA]
    (List.Perm.swap demoEvTableB demoEvTableA []) (by decide) "B"

end RBR
